import Mathlib

/-!
Verification of the continuous-aggregate dependency resolver of the
timescaledb-report tool.  The definitions below are a shallow embedding of
the pure core found in `timescaledb_report/report.py`
(`build_aggregate_chains`, `find_path_in_graph`) and the pure fragments of
`timescaledb_report/policies.py` (`get_all_continuous_aggregates`: the
dependency-graph builder of STEP 6 and the health-metrics special case of
STEP 7).  Python dictionaries are modelled as insertion-ordered association
lists, Python string containment (`x in y`) as substring search over the
character lists, and the in-place mutations of the source as explicit
state threading over those lists.
-/

namespace TSDB

/-- Python dict lookup `m[k]` / `m.get(k)`: first binding wins (keys of a
real dict are unique). -/
def dget? {β : Type} : List (String × β) → String → Option β
  | [], _ => none
  | (k, v) :: rest, key => if key = k then some v else dget? rest key

/-- Python dict assignment `m[k] = v`: replace the binding in place if the
key exists, otherwise append the new binding at the end (insertion order). -/
def dset {β : Type} : List (String × β) → String → β → List (String × β)
  | [], key, v => [(key, v)]
  | (k, w) :: rest, key, v =>
    if k = key then (key, v) :: rest else (k, w) :: dset rest key v

/-- In-place mutation of the value stored under an existing key (a no-op on
a missing key; every use site in the source is guarded by a membership
check, so the no-op branch is unreachable there). -/
def dmodify {β : Type} (f : β → β) : List (String × β) → String → List (String × β)
  | [], _ => []
  | (k, w) :: rest, key =>
    if k = key then (k, f w) :: rest else (k, w) :: dmodify f rest key

/-- Python membership test `k in m` on a dict. -/
def dmem {β : Type} (m : List (String × β)) (k : String) : Bool :=
  (dget? m k).isSome

/-- Is the first character list a prefix of the second? -/
def listPrefixOf : List Char → List Char → Bool
  | [], _ => true
  | _ :: _, [] => false
  | a :: as, b :: bs => a = b && listPrefixOf as bs

/-- Is the first character list a contiguous infix of the second? -/
def listInfix (needle : List Char) : List Char → Bool
  | [] => needle.isEmpty
  | b :: bs => listPrefixOf needle (b :: bs) || listInfix needle bs

/-- Python substring containment `needle in haystack` on strings. -/
def pyIn (needle haystack : String) : Bool :=
  listInfix needle.data haystack.data

/-- Python prefix test `s.startswith(pre)`. -/
def pyStartsWith (s pre : String) : Bool :=
  listPrefixOf pre.data s.data

/-- The condition `view in view_definitions and needle in
view_definitions[view]` used throughout `build_aggregate_chains`. -/
def defContains (vd : List (String × String)) (view needle : String) : Bool :=
  match dget? vd view with
  | none => false
  | some d => pyIn needle d

/-- Adjacency structure produced by STEP 6 of `get_all_continuous_aggregates`:
node name to ordered list of directly dependent node names. -/
abbrev Graph := List (String × List String)

/-- Every node name that occurs anywhere in the graph (keys and adjacency
lists); the finite node set of the termination argument. -/
def graphNodes (g : Graph) : List String :=
  g.map Prod.fst ++ (g.map Prod.snd).flatten

/-- Number of graph nodes not yet on the current path: the measure that
shrinks at every recursive call of the path finder. -/
def freshCount (g : Graph) (path : List String) : Nat :=
  ((graphNodes g).filter (fun y => decide (y ∉ path))).length

theorem length_filter_le_of_imp {l : List String} {p q : String → Bool}
    (h : ∀ y, p y = true → q y = true) :
    (l.filter p).length ≤ (l.filter q).length := by
  induction l with
  | nil => simp
  | cons a tl ih =>
    by_cases hp : p a = true
    · have hq := h a hp
      simp [List.filter, hp, hq]
      omega
    · have hp2 : p a = false := by
        cases hpa : p a
        · rfl
        · exact absurd hpa hp
      cases hq : q a <;> simp [List.filter, hp2, hq] <;> omega

theorem filter_notmem_append_lt {l : List String} {x : String} {path : List String}
    (hx : x ∈ l) (hnp : x ∉ path) :
    (l.filter (fun y => decide (y ∉ path ++ [x]))).length <
      (l.filter (fun y => decide (y ∉ path))).length := by
  induction l with
  | nil => cases hx
  | cons a tl ih =>
    have himp : ∀ y : String,
        (decide (y ∉ path ++ [x]) = true) → (decide (y ∉ path) = true) := by
      intro y hy
      simp only [decide_eq_true_eq, List.mem_append] at hy ⊢
      intro hc
      exact hy (Or.inl hc)
    by_cases hax : a = x
    · subst hax
      have h1 : decide (a ∉ path ++ [a]) = false := by
        simp
      have h2 : decide (a ∉ path) = true := by
        simpa using hnp
      simp only [List.filter, h1, h2, List.length_cons]
      have := @length_filter_le_of_imp tl
        (fun y => decide (y ∉ path ++ [a])) (fun y => decide (y ∉ path)) himp
      omega
    · have hx2 : x ∈ tl := by
        cases hx with
        | head => exact absurd rfl hax
        | tail _ h => exact h
      have heq : decide (a ∉ path ++ [x]) = decide (a ∉ path) := by
        by_cases hap : a ∈ path
        · simp [hap]
        · simp [hap, List.mem_append, hax]
      cases hcase : decide (a ∉ path) with
      | false =>
        simp only [List.filter, heq, hcase]
        exact ih hx2
      | true =>
        simp only [List.filter, heq, hcase, List.length_cons]
        have := ih hx2
        omega

theorem freshCount_append_lt {g : Graph} {x : String} {path : List String}
    (hx : x ∈ graphNodes g) (hnp : x ∉ path) :
    freshCount g (path ++ [x]) < freshCount g path :=
  filter_notmem_append_lt hx hnp

theorem mem_graphNodes_of_dget? {g : Graph} {s : String} {ns : List String}
    (h : dget? g s = some ns) : ∀ n ∈ ns, n ∈ graphNodes g := by
  induction g with
  | nil => simp [dget?] at h
  | cons p rest ih =>
    obtain ⟨k, v⟩ := p
    intro n hn
    by_cases hk : s = k
    · simp only [dget?, hk, if_pos rfl] at h
      cases h
      simp only [graphNodes, List.map_cons, List.mem_append, List.mem_cons,
        List.flatten_cons]
      exact Or.inr (Or.inl hn)
    · simp only [dget?, if_neg hk] at h
      have := ih h n hn
      simp only [graphNodes, List.map_cons, List.mem_append, List.mem_cons,
        List.flatten_cons] at this ⊢
      rcases this with h1 | h2
      · exact Or.inl (Or.inr h1)
      · exact Or.inr (Or.inr h2)

mutual

/-- Depth-first path search of `report.py` (`find_path_in_graph`): extend
the current path with `start`; succeed when the target is reached; fail
when `start` has no adjacency entry; otherwise try the neighbors in order,
skipping nodes already on the path.  The extra hypothesis on the neighbor
list (it always holds for a list read out of the graph) carries the
termination argument: each recursive call strictly extends the path within
the finite node set of the graph. -/
def find_path_in_graph (g : Graph) (start target : String) (path : List String) :
    Option (List String) :=
  if start = target then some (path ++ [start])
  else
    match h : dget? g start with
    | none => none
    | some neighbors =>
      findPathFrom g target (path ++ [start]) neighbors (mem_graphNodes_of_dget? h)
termination_by (freshCount g (path ++ [start]), 1, 0)

/-- The neighbor loop of `find_path_in_graph`: return the first successful
recursive search, skipping neighbors already on the current path. -/
def findPathFrom (g : Graph) (target : String) (path2 : List String)
    (neighbors : List String) (hn : ∀ n ∈ neighbors, n ∈ graphNodes g) :
    Option (List String) :=
  match neighbors with
  | [] => none
  | node :: rest =>
    if hmem : node ∈ path2 then
      findPathFrom g target path2 rest (fun n h => hn n (List.mem_cons_of_mem _ h))
    else
      match find_path_in_graph g node target path2 with
      | some r => some r
      | none =>
        findPathFrom g target path2 rest (fun n h => hn n (List.mem_cons_of_mem _ h))
termination_by (freshCount g path2, 0, neighbors.length)
decreasing_by
  all_goals
    first
      | decreasing_tactic
      | exact Prod.Lex.left _ _
          (freshCount_append_lt (hn node (List.mem_cons_self _ _)) hmem)

end

theorem find_path_some_bound (g : Graph) :
    ∀ (start target : String) (path p : List String),
      find_path_in_graph g start target path = some p →
      ((path ++ [start]) <+: p ∧
        p.length ≤ (path ++ [start]).length + freshCount g (path ++ [start])) := by
  intro s t pa p h
  refine find_path_in_graph.induct g
      (fun start target path => ∀ q, find_path_in_graph g start target path = some q →
        ((path ++ [start]) <+: q ∧
          q.length ≤ (path ++ [start]).length + freshCount g (path ++ [start])))
      (fun target path2 neighbors hn => ∀ q, findPathFrom g target path2 neighbors hn = some q →
        (path2 <+: q ∧ q.length ≤ path2.length + freshCount g path2))
      ?_ ?_ ?_ ?_ ?_ ?_ ?_ s t pa p h
  · intro target path q hq
    simp only [find_path_in_graph, if_pos rfl] at hq
    cases hq
    exact ⟨List.prefix_refl _, Nat.le_add_right _ _⟩
  · intro start target path hne hnone q hq
    simp only [find_path_in_graph, if_neg hne] at hq
    split at hq
    · cases hq
    · rename_i neighbors heq
      rw [hnone] at heq
      cases heq
  · intro start target path hne neighbors hsome ih q hq
    simp only [find_path_in_graph, if_neg hne] at hq
    split at hq
    · cases hq
    · rename_i ns heq
      rw [hsome] at heq
      cases heq
      exact ih q hq
  · intro target path2 hn _ q hq
    simp only [findPathFrom] at hq
    exact Option.noConfusion hq
  · intro target path2 node rest hn hmem _ ih q hq
    simp only [findPathFrom, dif_pos hmem] at hq
    exact ih q hq
  · intro target path2 node rest hn hmem r hr _ ih q hq
    simp only [findPathFrom, dif_neg hmem, hr] at hq
    cases hq
    have hb := ih r hr
    have hfresh : freshCount g (path2 ++ [node]) < freshCount g path2 :=
      freshCount_append_lt (hn node (List.mem_cons_self _ _)) hmem
    constructor
    · exact (List.prefix_append path2 [node]).trans hb.1
    · have := hb.2
      simp only [List.length_append, List.length_cons, List.length_nil] at this
      omega
  · intro target path2 node rest hn hmem hnone hdup ih1 ih2 q hq
    simp only [findPathFrom, dif_neg hmem, hnone] at hq
    exact ih2 q hq

/-- The entry of one base table in `agg_chain`: the `direct` and
`indirect` lists, each read with `.get(.., [])` (a missing key reads as
`[]`). -/
structure Aggs where
  direct : List String
  indirect : List String
deriving Repr, DecidableEq

/-- The record kept per view in a resolved chain: level, source and
children. -/
structure ChainEntry where
  level : Nat
  source : String
  children : List String
deriving Repr, DecidableEq

/-- The resolved chain of one base table: view name to `ChainEntry`. -/
abbrev Chain := List (String × ChainEntry)

/-- Junk entry returned by unguarded reads; every read in the source is
reachable only when the key is present, so this default is never observed. -/
def defaultEntry : ChainEntry := ⟨0, "", []⟩

/-- Read the level field of `chain[k]` (key always present at the call
sites). -/
def chLevel (ch : Chain) (k : String) : Nat :=
  ((dget? ch k).getD defaultEntry).level

/-- The step-2 loop of `build_aggregate_chains`: `for direct in
direct_aggs`, on a substring match append `indirect` to the matching direct
children of the matching direct entry and overwrite the entry of
`indirect` with level 2 and source
`direct`. -/
def step2run (vd : List (String × String)) (ind : String) :
    List String → Chain → Chain
  | [], ch => ch
  | direct :: rest, ch =>
    step2run vd ind rest
      (if defContains vd ind direct = true then
        if dmem ch direct = true then
          dset (dmodify (fun e => { e with children := e.children ++ [ind] }) ch direct)
            ind ⟨2, direct, []⟩
        else ch
      else ch)

/-- The step-3 loop of `build_aggregate_chains`: `for level2_agg in
indirect_aggs`, on a substring match append `indirect` to the matching
children of the matching entry and overwrite the entry of
`indirect` with level 3 and source
`level2_agg`. -/
def step3run (vd : List (String × String)) (ind : String) :
    List String → Chain → Chain
  | [], ch => ch
  | l2 :: rest, ch =>
    step3run vd ind rest
      (if ind ≠ l2 ∧ defContains vd ind l2 = true then
        if dmem ch l2 = true then
          dset (dmodify (fun e => { e with children := e.children ++ [ind] }) ch l2)
            ind ⟨3, l2, []⟩
        else ch
      else ch)

/-- Phase 1 of `build_aggregate_chains` for one base table: skip tables
with no direct aggregates, seed the direct aggregates at level 1, then run
the step-2 and step-3 loops for each indirect aggregate in order. -/
def phase1table (vd : List (String × String)) (cc : List (String × Chain))
    (table : String) (aggs : Aggs) : List (String × Chain) :=
  if aggs.direct.isEmpty then cc
  else
    let ch0 := (dget? cc table).getD []
    let ch1 := aggs.direct.foldl (fun ch agg => dset ch agg ⟨1, table, []⟩) ch0
    let ch2 := aggs.indirect.foldl
      (fun ch ind => step3run vd ind aggs.indirect (step2run vd ind aggs.direct ch)) ch1
    dset cc table ch2

/-- Phase 1 of `build_aggregate_chains`: the `for table, aggregates in
agg_chain.items()` loop, starting from the fresh `complete_chains = {}`. -/
def phase1 (vd : List (String × String)) (ac : List (String × Aggs)) :
    List (String × Chain) :=
  ac.foldl (fun cc p => phase1table vd cc p.1 p.2) []

/-- The body of the reconciliation pass for one ordered pair of views
already in the chain: if `other` occurs in the definition text of `view`
and the level of `other` plus one exceeds the level of `view`, raise the
level of `view`, point its source at `other`, and record `view` among the
children of `other`. -/
def reconStep (view otherView viewDef : String) (ch : Chain) : Chain :=
  if view ≠ otherView ∧ pyIn otherView viewDef = true then
    let newLevel := chLevel ch otherView + 1
    if chLevel ch view < newLevel then
      let ch1 := dmodify (fun e => { e with level := newLevel, source := otherView }) ch view
      if view ∈ ((dget? ch1 otherView).getD defaultEntry).children then ch1
      else dmodify (fun e => { e with children := e.children ++ [view] }) ch1 otherView
    else ch
  else ch

/-- Phase 2 (reconciliation) of `build_aggregate_chains` for one table:
both loops run over a snapshot of the chain keys; the definition text of
the view is read once per outer iteration with the empty string as the
missing default. -/
def phase2table (vd : List (String × String)) (ch : Chain) : Chain :=
  let views := ch.map Prod.fst
  views.foldl
    (fun ch view =>
      let viewDef := (dget? vd view).getD ""
      views.foldl (fun ch other => reconStep view other viewDef ch) ch)
    ch

/-- Phase 2 of `build_aggregate_chains`: reconcile the chain of every
table. -/
def phase2 (vd : List (String × String)) (cc : List (String × Chain)) :
    List (String × Chain) :=
  (cc.map Prod.fst).foldl
    (fun cc t => dset cc t (phase2table vd ((dget? cc t).getD []))) cc

/-- Phase 3 of `build_aggregate_chains` for one view: skip the base table
itself; when the path finder returns a path, overwrite the level with the
path length minus one and, for paths longer than two nodes, overwrite the
source with the second-to-last node. -/
def phase3view (g : Graph) (table view : String) (ch : Chain) : Chain :=
  if view = table then ch
  else
    match find_path_in_graph g table view [] with
    | none => ch
    | some p =>
      let ch1 := dmodify (fun e => { e with level := p.length - 1 }) ch view
      if 2 < p.length then
        dmodify (fun e => { e with source := p.getD (p.length - 2) "" }) ch1 view
      else ch1

/-- Phase 3 of `build_aggregate_chains` for one table: run the per-view
graph correction over a snapshot of the chain keys. -/
def phase3chain (g : Graph) (table : String) (ch : Chain) : Chain :=
  (ch.map Prod.fst).foldl (fun ch view => phase3view g table view ch) ch

/-- Phase 3 of `build_aggregate_chains`: the graph-verified correction,
applied to the chain of every table. -/
def phase3 (g : Graph) (cc : List (String × Chain)) : List (String × Chain) :=
  (cc.map Prod.fst).foldl
    (fun cc t => dset cc t (phase3chain g t ((dget? cc t).getD []))) cc

/-- `build_aggregate_chains(agg_chain, view_definitions, dependency_graph)`
from `report.py`: heuristic chain building (phase 1), reconciliation from
view definitions (phase 2), and, when a non-empty dependency graph is
supplied (`if dependency_graph:` — `None` and `{}` are both falsy), the
authoritative graph correction (phase 3). -/
def build_aggregate_chains (ac : List (String × Aggs)) (vd : List (String × String))
    (dg : Option Graph) : List (String × Chain) :=
  let cc := phase1 vd ac
  let cc := phase2 vd cc
  match dg with
  | none => cc
  | some g => if g.isEmpty then cc else phase3 g cc

/-- One iteration of the STEP 6 loop of `get_all_continuous_aggregates`
(`policies.py`): create an empty adjacency list for a new source, then
append the target unless it is already recorded. -/
def add_edge (g : Graph) (source target : String) : Graph :=
  let g1 := if dmem g source = true then g else dset g source []
  if target ∈ (dget? g1 source).getD [] then g1
  else dmodify (fun l => l ++ [target]) g1 source

/-- The STEP 6 dependency-graph builder: fold `add_edge` over the
relationship rows (each row contributing its `raw_table_name` and
`agg_view_name` fields). -/
def build_dependency_graph (rows : List (String × String)) (g : Graph) : Graph :=
  rows.foldl (fun g r => add_edge g r.1 r.2) g

/-- Lexicographic strict comparison of character lists by code point: the
comparison Python uses on strings. -/
def strLtB : List Char → List Char → Bool
  | [], [] => false
  | [], _ :: _ => true
  | _ :: _, [] => false
  | a :: as, b :: bs =>
    if a < b then true else if b < a then false else strLtB as bs

/-- Stable insertion into an ascending list, modelling the order produced
by Python `list.sort()` on strings. -/
def insertSorted (x : String) : List String → List String
  | [] => [x]
  | y :: ys => if strLtB y.data x.data then y :: insertSorted x ys else x :: y :: ys

/-- Python `list.sort()` on strings: stable ascending lexicographic sort. -/
def pySort (l : List String) : List String :=
  l.foldr insertSorted []

/-- The STEP 7 health-metrics special case of `get_all_continuous_aggregates`
(`policies.py` lines 449-474): collect catalog view names starting with
`health_metrics_`, sort them, and when at least two exist and
`health_metrics_raw` has an `agg_chain` entry, append every sorted view
after the first to the indirect list of that entry unless it is already listed
as direct or indirect. -/
def health_metrics_fix (caggViewNames : List String)
    (agg_chain : List (String × Aggs)) : List (String × Aggs) :=
  let health_views := caggViewNames.filter (fun n => pyStartsWith n "health_metrics_")
  let hv := pySort health_views
  if 2 ≤ hv.length then
    if dmem agg_chain "health_metrics_raw" = true then
      (hv.drop 1).foldl
        (fun ac current =>
          match dget? ac "health_metrics_raw" with
          | none => ac
          | some aggs =>
            if current ∈ aggs.direct ∨ current ∈ aggs.indirect then ac
            else dmodify (fun a => { a with indirect := a.indirect ++ [current] })
              ac "health_metrics_raw")
        agg_chain
    else agg_chain
  else agg_chain

/-! Basic lemmas about the association-list dictionary operations. -/

theorem dget?_dset_self {β : Type} (m : List (String × β)) (k : String) (v : β) :
    dget? (dset m k v) k = some v := by
  induction m with
  | nil => simp [dset, dget?]
  | cons p rest ih =>
    obtain ⟨k1, w⟩ := p
    by_cases h : k1 = k
    · simp [dset, h, dget?]
    · have h2 : ¬ k = k1 := fun hc => h hc.symm
      simp [dset, h, dget?, h2, ih]

theorem dget?_dset_ne {β : Type} (m : List (String × β)) (k k2 : String) (v : β)
    (h : k2 ≠ k) : dget? (dset m k v) k2 = dget? m k2 := by
  induction m with
  | nil => simp [dset, dget?, h]
  | cons p rest ih =>
    obtain ⟨k1, w⟩ := p
    by_cases h1 : k1 = k
    · subst h1
      simp [dset, dget?, h, ih]
    · simp only [dset, if_neg h1]
      by_cases h2 : k2 = k1
      · simp [dget?, h2]
      · simp [dget?, h2, ih]

theorem dget?_dmodify_self {β : Type} (f : β → β) (m : List (String × β)) (k : String) :
    dget? (dmodify f m k) k = (dget? m k).map f := by
  induction m with
  | nil => simp [dmodify, dget?]
  | cons p rest ih =>
    obtain ⟨k1, w⟩ := p
    by_cases h : k1 = k
    · simp [dmodify, h, dget?]
    · have h2 : ¬ k = k1 := fun hc => h hc.symm
      simp [dmodify, h, dget?, h2, ih]

theorem dget?_dmodify_ne {β : Type} (f : β → β) (m : List (String × β)) (k k2 : String)
    (h : k2 ≠ k) : dget? (dmodify f m k) k2 = dget? m k2 := by
  induction m with
  | nil => simp [dmodify, dget?]
  | cons p rest ih =>
    obtain ⟨k1, w⟩ := p
    by_cases h1 : k1 = k
    · subst h1
      simp [dmodify, dget?, h, ih]
    · simp only [dmodify, if_neg h1]
      by_cases h2 : k2 = k1
      · simp [dget?, h2]
      · simp [dget?, h2, ih]

theorem keys_dmodify {β : Type} (f : β → β) (m : List (String × β)) (k : String) :
    (dmodify f m k).map Prod.fst = m.map Prod.fst := by
  induction m with
  | nil => simp [dmodify]
  | cons p rest ih =>
    obtain ⟨k1, w⟩ := p
    by_cases h : k1 = k <;> simp [dmodify, h, ih]

theorem dget?_isSome_iff_mem_keys {β : Type} (m : List (String × β)) (k : String) :
    (dget? m k).isSome = true ↔ k ∈ m.map Prod.fst := by
  induction m with
  | nil => simp [dget?]
  | cons p rest ih =>
    obtain ⟨k1, w⟩ := p
    by_cases h : k = k1
    · simp [dget?, h]
    · simp [dget?, h, ih]

theorem dget?_eq_none_iff {β : Type} (m : List (String × β)) (k : String) :
    dget? m k = none ↔ k ∉ m.map Prod.fst := by
  rw [← dget?_isSome_iff_mem_keys]
  cases h : dget? m k <;> simp [h]

theorem keys_dset_mem {β : Type} (m : List (String × β)) (k : String) (v : β)
    (h : k ∈ m.map Prod.fst) : (dset m k v).map Prod.fst = m.map Prod.fst := by
  induction m with
  | nil => cases h
  | cons p rest ih =>
    obtain ⟨k1, w⟩ := p
    by_cases h1 : k1 = k
    · simp [dset, h1]
    · simp only [List.map_cons, List.mem_cons] at h
      rcases h with h | h
      · exact absurd h.symm h1
      · simp [dset, h1, ih h]

theorem keys_dset_not_mem {β : Type} (m : List (String × β)) (k : String) (v : β)
    (h : k ∉ m.map Prod.fst) :
    (dset m k v).map Prod.fst = m.map Prod.fst ++ [k] := by
  induction m with
  | nil => simp [dset]
  | cons p rest ih =>
    obtain ⟨k1, w⟩ := p
    simp only [List.map_cons, List.mem_cons] at h
    push_neg at h
    have h1 : ¬ k1 = k := fun hc => h.1 hc.symm
    simp [dset, h1, ih h.2]

theorem nodup_keys_dset {β : Type} (m : List (String × β)) (k : String) (v : β)
    (h : (m.map Prod.fst).Nodup) : ((dset m k v).map Prod.fst).Nodup := by
  by_cases hk : k ∈ m.map Prod.fst
  · rw [keys_dset_mem m k v hk]; exact h
  · rw [keys_dset_not_mem m k v hk]
    simp only [List.nodup_append, List.nodup_cons, List.nodup_nil]
    refine ⟨h, ⟨by simp, by simp⟩, ?_⟩
    intro a ha hb
    simp only [List.mem_singleton] at hb
    subst hb
    exact hk ha

theorem isSome_dget?_dset {β : Type} (m : List (String × β)) (k k2 : String) (v : β)
    (h : (dget? m k2).isSome = true) : (dget? (dset m k v) k2).isSome = true := by
  by_cases hk : k2 = k
  · subst hk; rw [dget?_dset_self]; rfl
  · rw [dget?_dset_ne m k k2 v hk]; exact h

theorem isSome_dget?_dmodify {β : Type} (f : β → β) (m : List (String × β)) (k k2 : String)
    (h : (dget? m k2).isSome = true) : (dget? (dmodify f m k) k2).isSome = true := by
  by_cases hk : k2 = k
  · subst hk
    rw [dget?_dmodify_self]
    cases hm : dget? m k2
    · rw [hm] at h; cases h
    · rfl
  · rw [dget?_dmodify_ne f m k k2 hk]; exact h

theorem dget?_dset_none {β : Type} {m : List (String × β)} {k k2 : String} {v : β}
    (hne : k2 ≠ k) (h : dget? m k2 = none) : dget? (dset m k v) k2 = none := by
  rw [dget?_dset_ne m k k2 v hne]; exact h

theorem dget?_dmodify_none {β : Type} {f : β → β} {m : List (String × β)} {k k2 : String}
    (h : dget? m k2 = none) : dget? (dmodify f m k) k2 = none := by
  by_cases hk : k2 = k
  · subst hk; rw [dget?_dmodify_self, h]; rfl
  · rw [dget?_dmodify_ne f m k k2 hk]; exact h

/-! Lemmas about the step-2 and step-3 loops. -/

theorem isSome_step2run {vd : List (String × String)} {ind : String} :
    ∀ {ds : List String} {ch : Chain} {k : String},
      (dget? ch k).isSome = true → (dget? (step2run vd ind ds ch) k).isSome = true := by
  intro ds
  induction ds with
  | nil => intro ch k h; exact h
  | cons d rest ih =>
    intro ch k h
    simp only [step2run]
    apply ih
    by_cases h1 : defContains vd ind d = true
    · by_cases h2 : dmem ch d = true
      · rw [if_pos h1, if_pos h2]
        exact isSome_dget?_dset _ _ _ _ (isSome_dget?_dmodify _ _ _ _ h)
      · rw [if_pos h1, if_neg h2]; exact h
    · rw [if_neg h1]; exact h

theorem isSome_step3run {vd : List (String × String)} {ind : String} :
    ∀ {ds : List String} {ch : Chain} {k : String},
      (dget? ch k).isSome = true → (dget? (step3run vd ind ds ch) k).isSome = true := by
  intro ds
  induction ds with
  | nil => intro ch k h; exact h
  | cons l2 rest ih =>
    intro ch k h
    simp only [step3run]
    apply ih
    by_cases h1 : ind ≠ l2 ∧ defContains vd ind l2 = true
    · by_cases h2 : dmem ch l2 = true
      · rw [if_pos h1, if_pos h2]
        exact isSome_dget?_dset _ _ _ _ (isSome_dget?_dmodify _ _ _ _ h)
      · rw [if_pos h1, if_neg h2]; exact h
    · rw [if_neg h1]; exact h

theorem dget?_step2run_none {vd : List (String × String)} {ind : String} :
    ∀ {ds : List String} {ch : Chain} {t : String}, t ≠ ind →
      dget? ch t = none → dget? (step2run vd ind ds ch) t = none := by
  intro ds
  induction ds with
  | nil => intro ch t _ h; exact h
  | cons d rest ih =>
    intro ch t hne h
    simp only [step2run]
    apply ih hne
    by_cases h1 : defContains vd ind d = true
    · by_cases h2 : dmem ch d = true
      · rw [if_pos h1, if_pos h2]
        exact dget?_dset_none hne (dget?_dmodify_none h)
      · rw [if_pos h1, if_neg h2]; exact h
    · rw [if_neg h1]; exact h

theorem dget?_step3run_none {vd : List (String × String)} {ind : String} :
    ∀ {ds : List String} {ch : Chain} {t : String}, t ≠ ind →
      dget? ch t = none → dget? (step3run vd ind ds ch) t = none := by
  intro ds
  induction ds with
  | nil => intro ch t _ h; exact h
  | cons l2 rest ih =>
    intro ch t hne h
    simp only [step3run]
    apply ih hne
    by_cases h1 : ind ≠ l2 ∧ defContains vd ind l2 = true
    · by_cases h2 : dmem ch l2 = true
      · rw [if_pos h1, if_pos h2]
        exact dget?_dset_none hne (dget?_dmodify_none h)
      · rw [if_pos h1, if_neg h2]; exact h
    · rw [if_neg h1]; exact h

theorem nodup_keys_step2run {vd : List (String × String)} {ind : String} :
    ∀ {ds : List String} {ch : Chain},
      (ch.map Prod.fst).Nodup → ((step2run vd ind ds ch).map Prod.fst).Nodup := by
  intro ds
  induction ds with
  | nil => intro ch h; exact h
  | cons d rest ih =>
    intro ch h
    simp only [step2run]
    apply ih
    by_cases h1 : defContains vd ind d = true
    · by_cases h2 : dmem ch d = true
      · rw [if_pos h1, if_pos h2]
        apply nodup_keys_dset
        rw [keys_dmodify]
        exact h
      · rw [if_pos h1, if_neg h2]; exact h
    · rw [if_neg h1]; exact h

theorem nodup_keys_step3run {vd : List (String × String)} {ind : String} :
    ∀ {ds : List String} {ch : Chain},
      (ch.map Prod.fst).Nodup → ((step3run vd ind ds ch).map Prod.fst).Nodup := by
  intro ds
  induction ds with
  | nil => intro ch h; exact h
  | cons l2 rest ih =>
    intro ch h
    simp only [step3run]
    apply ih
    by_cases h1 : ind ≠ l2 ∧ defContains vd ind l2 = true
    · by_cases h2 : dmem ch l2 = true
      · rw [if_pos h1, if_pos h2]
        apply nodup_keys_dset
        rw [keys_dmodify]
        exact h
      · rw [if_pos h1, if_neg h2]; exact h
    · rw [if_neg h1]; exact h

/-! Key preservation through the reconciliation and graph-correction passes. -/

theorem keys_foldl_preserve {β γ : Type} (f : List (String × β) → γ → List (String × β))
    (h : ∀ m a, (f m a).map Prod.fst = m.map Prod.fst) :
    ∀ (l : List γ) (m : List (String × β)),
      ((l.foldl f m).map Prod.fst) = m.map Prod.fst := by
  intro l
  induction l with
  | nil => intro m; rfl
  | cons a rest ih =>
    intro m
    simp only [List.foldl_cons]
    rw [ih, h]

theorem keys_reconStep (view otherView viewDef : String) (ch : Chain) :
    (reconStep view otherView viewDef ch).map Prod.fst = ch.map Prod.fst := by
  unfold reconStep
  dsimp only
  split_ifs with h1 h2 h3
  · rw [keys_dmodify]
  · rw [keys_dmodify, keys_dmodify]
  · rfl
  · rfl

theorem keys_phase2table (vd : List (String × String)) (ch : Chain) :
    (phase2table vd ch).map Prod.fst = ch.map Prod.fst := by
  unfold phase2table
  apply keys_foldl_preserve
  intro m view
  apply keys_foldl_preserve
  intro m2 other
  exact keys_reconStep _ _ _ _

theorem keys_phase3view (g : Graph) (t v : String) (ch : Chain) :
    (phase3view g t v ch).map Prod.fst = ch.map Prod.fst := by
  unfold phase3view
  split
  · rfl
  · split
    · rfl
    · split
      · rw [keys_dmodify, keys_dmodify]
      · rw [keys_dmodify]

theorem keys_phase3chain (g : Graph) (t : String) (ch : Chain) :
    (phase3chain g t ch).map Prod.fst = ch.map Prod.fst := by
  unfold phase3chain
  apply keys_foldl_preserve
  intro m v
  exact keys_phase3view _ _ _ _

/-- The action of the phase-3 graph correction on a single chain entry:
how `phase3view` rewrites the entry stored under `v` in the chain of
table `t`. -/
def p3update (g : Graph) (t v : String) (e : ChainEntry) : ChainEntry :=
  if v = t then e
  else
    match find_path_in_graph g t v [] with
    | none => e
    | some p =>
      let e1 := { e with level := p.length - 1 }
      if 2 < p.length then { e1 with source := p.getD (p.length - 2) "" } else e1

theorem dget?_phase3view_self (g : Graph) (t v : String) (ch : Chain) :
    dget? (phase3view g t v ch) v = (dget? ch v).map (p3update g t v) := by
  unfold phase3view p3update
  by_cases hvt : v = t
  · simp only [if_pos hvt]
    cases dget? ch v <;> simp
  · simp only [if_neg hvt]
    cases hp : find_path_in_graph g t v [] with
    | none => cases dget? ch v <;> simp
    | some p =>
      dsimp only
      by_cases hlen : 2 < p.length
      · simp only [if_pos hlen, dget?_dmodify_self]
        cases dget? ch v <;> simp
      · simp only [if_neg hlen, dget?_dmodify_self]

theorem dget?_phase3view_ne (g : Graph) (t v w : String) (ch : Chain) (h : w ≠ v) :
    dget? (phase3view g t v ch) w = dget? ch w := by
  unfold phase3view
  by_cases hvt : v = t
  · rw [if_pos hvt]
  · rw [if_neg hvt]
    cases hp : find_path_in_graph g t v [] with
    | none => rfl
    | some p =>
      dsimp only
      by_cases hlen : 2 < p.length
      · rw [if_pos hlen, dget?_dmodify_ne _ _ _ _ h, dget?_dmodify_ne _ _ _ _ h]
      · rw [if_neg hlen, dget?_dmodify_ne _ _ _ _ h]

theorem dget?_foldl_phase3view (g : Graph) (t : String) :
    ∀ (views : List String) (ch : Chain) (w : String), views.Nodup →
      dget? (views.foldl (fun ch v => phase3view g t v ch) ch) w =
        if w ∈ views then (dget? ch w).map (p3update g t w) else dget? ch w := by
  intro views
  induction views with
  | nil => intro ch w _; simp
  | cons v rest ih =>
    intro ch w hnd
    have hv : v ∉ rest := (List.nodup_cons.mp hnd).1
    have hrest : rest.Nodup := (List.nodup_cons.mp hnd).2
    simp only [List.foldl_cons]
    by_cases hw : w = v
    · subst hw
      rw [ih _ _ hrest, if_neg hv, dget?_phase3view_self]
      simp
    · rw [ih _ _ hrest]
      by_cases hwr : w ∈ rest
      · rw [if_pos hwr, dget?_phase3view_ne _ _ _ _ _ hw]
        simp [hwr]
      · rw [if_neg hwr, dget?_phase3view_ne _ _ _ _ _ hw]
        simp [hwr, hw]

theorem dget?_phase3chain (g : Graph) (t : String) (ch : Chain) (w : String)
    (h : (ch.map Prod.fst).Nodup) :
    dget? (phase3chain g t ch) w = (dget? ch w).map (p3update g t w) := by
  unfold phase3chain
  rw [dget?_foldl_phase3view g t _ _ _ h]
  by_cases hw : w ∈ ch.map Prod.fst
  · rw [if_pos hw]
  · rw [if_neg hw, (dget?_eq_none_iff ch w).mpr hw]
    rfl

/-- Characterization of the shared outer-loop shape of phases 2 and 3: fold
over a snapshot of the keys, replacing the chain of each table by a function of
its current chain. -/
theorem dget?_outer_fold (F : String → Chain → Chain) :
    ∀ (ks : List String) (cc : List (String × Chain)) (t : String),
      ks.Nodup → (∀ k ∈ ks, (dget? cc k).isSome = true) →
      dget? (ks.foldl (fun cc k => dset cc k (F k ((dget? cc k).getD []))) cc) t =
        if t ∈ ks then (dget? cc t).map (F t) else dget? cc t := by
  intro ks
  induction ks with
  | nil => intro cc t _ _; simp
  | cons k rest ih =>
    intro cc t hnd hsome
    have hk : k ∉ rest := (List.nodup_cons.mp hnd).1
    have hrest : rest.Nodup := (List.nodup_cons.mp hnd).2
    obtain ⟨ch, hch⟩ : ∃ ch, dget? cc k = some ch := by
      have := hsome k (List.mem_cons_self _ _)
      cases h : dget? cc k
      · rw [h] at this; cases this
      · exact ⟨_, rfl⟩
    simp only [List.foldl_cons]
    have hsome2 : ∀ k2 ∈ rest, (dget? (dset cc k (F k ((dget? cc k).getD []))) k2).isSome = true := by
      intro k2 hk2
      exact isSome_dget?_dset _ _ _ _ (hsome k2 (List.mem_cons_of_mem _ hk2))
    rw [ih _ t hrest hsome2]
    by_cases ht : t = k
    · subst ht
      rw [if_neg hk, dget?_dset_self, hch]
      simp
    · rw [dget?_dset_ne _ _ _ _ ht]
      by_cases htr : t ∈ rest
      · simp [htr]
      · simp [htr, ht]

theorem dget?_phase2 (vd : List (String × String)) (cc : List (String × Chain))
    (t : String) (h : (cc.map Prod.fst).Nodup) :
    dget? (phase2 vd cc) t = (dget? cc t).map (phase2table vd) := by
  unfold phase2
  rw [dget?_outer_fold (fun _ ch => phase2table vd ch) _ _ _ h]
  · by_cases ht : t ∈ cc.map Prod.fst
    · rw [if_pos ht]
    · rw [if_neg ht, (dget?_eq_none_iff cc t).mpr ht]
      rfl
  · intro k hk
    exact (dget?_isSome_iff_mem_keys cc k).mpr hk

theorem dget?_phase3 (g : Graph) (cc : List (String × Chain))
    (t : String) (h : (cc.map Prod.fst).Nodup) :
    dget? (phase3 g cc) t = (dget? cc t).map (phase3chain g t) := by
  unfold phase3
  rw [dget?_outer_fold (fun k ch => phase3chain g k ch) _ _ _ h]
  · by_cases ht : t ∈ cc.map Prod.fst
    · rw [if_pos ht]
    · rw [if_neg ht, (dget?_eq_none_iff cc t).mpr ht]
      rfl
  · intro k hk
    exact (dget?_isSome_iff_mem_keys cc k).mpr hk

/-! Well-formedness of the intermediate state: every dictionary built by
the resolver has duplicate-free keys, outer and inner. -/

theorem foldl_invariant {α β : Type} (P : β → Prop) (f : β → α → β)
    (h : ∀ b a, P b → P (f b a)) :
    ∀ (l : List α) (b : β), P b → P (l.foldl f b) := by
  intro l
  induction l with
  | nil => intro b hb; exact hb
  | cons a rest ih =>
    intro b hb
    exact ih _ (h b a hb)

/-- Combined well-formedness of an intermediate `complete_chains`. -/
def WFcc (cc : List (String × Chain)) : Prop :=
  (cc.map Prod.fst).Nodup ∧ ∀ t ch, dget? cc t = some ch → (ch.map Prod.fst).Nodup

theorem WFcc_nil : WFcc [] := by
  constructor
  · simp
  · intro t ch h
    cases h

theorem WFcc_phase1table (vd : List (String × String)) (cc : List (String × Chain))
    (table : String) (aggs : Aggs) (h : WFcc cc) :
    WFcc (phase1table vd cc table aggs) := by
  unfold phase1table
  by_cases hd : aggs.direct.isEmpty
  · rw [if_pos hd]; exact h
  · rw [if_neg hd]
    obtain ⟨h1, h2⟩ := h
    have hch0 : (((dget? cc table).getD []).map Prod.fst).Nodup := by
      cases hc : dget? cc table with
      | none => simp
      | some ch => exact h2 table ch hc
    have hch1 : ∀ ch1 : Chain, (ch1.map Prod.fst).Nodup →
        ((aggs.direct.foldl (fun ch agg => dset ch agg ⟨1, table, []⟩) ch1).map Prod.fst).Nodup := by
      intro ch1 hc
      exact foldl_invariant (fun ch : Chain => (ch.map Prod.fst).Nodup) _
        (fun ch agg hn => nodup_keys_dset _ _ _ hn) _ _ hc
    have hch2 : ∀ ch1 : Chain, (ch1.map Prod.fst).Nodup →
        ((aggs.indirect.foldl
          (fun ch ind => step3run vd ind aggs.indirect (step2run vd ind aggs.direct ch))
          ch1).map Prod.fst).Nodup := by
      intro ch1 hc
      exact foldl_invariant (fun ch : Chain => (ch.map Prod.fst).Nodup) _
        (fun ch ind hn => nodup_keys_step3run (nodup_keys_step2run hn)) _ _ hc
    constructor
    · exact nodup_keys_dset _ _ _ h1
    · intro t ch hc
      by_cases ht : t = table
      · subst ht
        rw [dget?_dset_self] at hc
        cases hc
        exact hch2 _ (hch1 _ hch0)
      · rw [dget?_dset_ne _ _ _ _ ht] at hc
        exact h2 t ch hc

theorem WFcc_phase1 (vd : List (String × String)) (ac : List (String × Aggs)) :
    WFcc (phase1 vd ac) := by
  unfold phase1
  exact foldl_invariant WFcc _
    (fun cc p h => WFcc_phase1table vd cc p.1 p.2 h) _ _ WFcc_nil

theorem WFcc_phase2 (vd : List (String × String)) (cc : List (String × Chain))
    (h : WFcc cc) : WFcc (phase2 vd cc) := by
  unfold phase2
  refine foldl_invariant WFcc _ ?_ _ _ h
  intro cc2 t ⟨h1, h2⟩
  constructor
  · exact nodup_keys_dset _ _ _ h1
  · intro t2 ch hc
    by_cases ht : t2 = t
    · subst ht
      rw [dget?_dset_self] at hc
      cases hc
      rw [keys_phase2table]
      cases hg : dget? cc2 t2 with
      | none => simp
      | some ch0 => simpa using h2 t2 ch0 hg
    · rw [dget?_dset_ne _ _ _ _ ht] at hc
      exact h2 t2 ch hc

/-- A successful path query between distinct nodes can only happen on a
non-empty graph (`if dependency_graph:` therefore cannot have skipped the
correction pass). -/
theorem find_path_nonempty_graph {g : Graph} {t v : String} {p : List String}
    (hne : t ≠ v) (h : find_path_in_graph g t v [] = some p) :
    g.isEmpty = false := by
  cases g with
  | nil =>
    exfalso
    simp only [find_path_in_graph, if_neg hne] at h
    split at h
    · cases h
    · rename_i ns heq
      cases heq
  | cons q rest => rfl

theorem build_with_graph (ac : List (String × Aggs)) (vd : List (String × String))
    (g : Graph) (h : g.isEmpty = false) :
    build_aggregate_chains ac vd (some g) = phase3 g (phase2 vd (phase1 vd ac)) := by
  simp only [build_aggregate_chains, h, Bool.false_eq_true, if_false]

/-- C1: graph-verified correction is authoritative.  For every base table
`t` and view `v ≠ t` present in the resolved chains, if the path finder
returns a path `p` from `t` to `v` in the supplied dependency graph, then
the final level of the view is `p.length - 1` (the number of edges of the path),
regardless of what the heuristic passes computed, and when the path has
more than one intermediate hop (`p.length > 2`) the final source of the view is
the second-to-last node of `p`. -/
theorem graph_correction_authoritative
    (ac : List (String × Aggs)) (vd : List (String × String)) (g : Graph)
    (t v : String) (ch : Chain) (e : ChainEntry) (p : List String)
    (hch : dget? (build_aggregate_chains ac vd (some g)) t = some ch)
    (he : dget? ch v = some e)
    (hne : v ≠ t)
    (hp : find_path_in_graph g t v [] = some p) :
    e.level = p.length - 1 ∧ (2 < p.length → e.source = p.getD (p.length - 2) "") := by
  have hgne : g.isEmpty = false := find_path_nonempty_graph (fun hc => hne hc.symm) hp
  rw [build_with_graph ac vd g hgne] at hch
  have hwf : WFcc (phase2 vd (phase1 vd ac)) := WFcc_phase2 vd _ (WFcc_phase1 vd ac)
  rw [dget?_phase3 g _ t hwf.1] at hch
  obtain ⟨ch0, hch0, rfl⟩ : ∃ ch0, dget? (phase2 vd (phase1 vd ac)) t = some ch0 ∧
      ch = phase3chain g t ch0 := by
    cases hc : dget? (phase2 vd (phase1 vd ac)) t with
    | none => rw [hc] at hch; cases hch
    | some ch0 =>
      rw [hc] at hch
      cases hch
      exact ⟨ch0, rfl, rfl⟩
  rw [dget?_phase3chain g t ch0 v (hwf.2 t ch0 hch0)] at he
  obtain ⟨e0, he0, rfl⟩ : ∃ e0, dget? ch0 v = some e0 ∧ e = p3update g t v e0 := by
    cases hc : dget? ch0 v with
    | none => rw [hc] at he; cases he
    | some e0 =>
      rw [hc] at he
      cases he
      exact ⟨e0, rfl, rfl⟩
  unfold p3update
  rw [if_neg hne, hp]
  dsimp only
  by_cases hlen : 2 < p.length
  · rw [if_pos hlen]
    exact ⟨rfl, fun _ => rfl⟩
  · rw [if_neg hlen]
    exact ⟨rfl, fun hc => absurd hc hlen⟩

/-! Concrete fixtures used to witness the theorems on small inputs. -/

def lineGraph : Graph := [("A", ["B"]), ("B", ["C"]), ("C", [])]

def cycleGraph : Graph := [("A", ["B"]), ("B", ["A"])]

def acW : List (String × Aggs) := [("t", ⟨["a"], ["b"]⟩)]

def vdW : List (String × String) := [("b", "x a y")]

def gW : Graph := [("t", ["a"]), ("a", ["b"])]

theorem find_path_gW_a : find_path_in_graph gW "t" "a" [] = some ["t", "a"] := by
  simp [find_path_in_graph, findPathFrom, gW, dget?]

theorem find_path_gW_b : find_path_in_graph gW "t" "b" [] = some ["t", "a", "b"] := by
  simp [find_path_in_graph, findPathFrom, gW, dget?]

theorem build_acW_eval :
    build_aggregate_chains acW vdW (some gW) =
      [("t", [("a", ⟨1, "t", ["b"]⟩), ("b", ⟨2, "a", []⟩)])] := by
  rw [build_with_graph acW vdW gW rfl]
  have hcc2 : phase2 vdW (phase1 vdW acW) =
      [("t", [("a", ⟨1, "t", ["b"]⟩), ("b", ⟨2, "a", []⟩)])] := by decide
  rw [hcc2]
  simp [phase3, phase3chain, phase3view, find_path_gW_a, find_path_gW_b,
    dget?, dset, dmodify]

/-- Witness for C1: the theorem applied to a concrete three-node pipeline. -/
theorem graph_correction_authoritative_witness :
    (⟨2, "a", []⟩ : ChainEntry).level = (["t", "a", "b"] : List String).length - 1 ∧
    (2 < (["t", "a", "b"] : List String).length →
      (⟨2, "a", []⟩ : ChainEntry).source =
        (["t", "a", "b"] : List String).getD ((["t", "a", "b"] : List String).length - 2) "") :=
  graph_correction_authoritative acW vdW gW "t" "b"
    [("a", ⟨1, "t", ["b"]⟩), ("b", ⟨2, "a", []⟩)] ⟨2, "a", []⟩ ["t", "a", "b"]
    (by rw [build_acW_eval]; rfl) (by decide) (by decide) find_path_gW_b

/-- C3: path-finder correctness on the three-node line graph
`{A:[B], B:[C], C:[]}`: the query from `A` to `C` returns `[A, B, C]`, the
reverse query returns not-found, and the self query returns `[A]`. -/
theorem find_path_line_graph :
    find_path_in_graph lineGraph "A" "C" [] = some ["A", "B", "C"] ∧
    find_path_in_graph lineGraph "C" "A" [] = none ∧
    find_path_in_graph lineGraph "A" "A" [] = some ["A"] := by
  refine ⟨?_, ?_, ?_⟩ <;> simp [find_path_in_graph, findPathFrom, lineGraph, dget?]

/-- C4: the path finder terminates with a result on every finite graph,
every start node and every end node: it yields either not-found or a path
that extends the current path, whose length is bounded by the current
length plus the number of graph nodes not yet visited — the strict-descent
argument of the source.  In particular the cyclic graph `{A:[B], B:[A]}`
yields `[A]` for the self query and not-found for an unreachable target
instead of looping. -/
theorem find_path_terminates :
    (∀ (g : Graph) (start target : String) (path : List String),
      find_path_in_graph g start target path = none ∨
      ∃ p, find_path_in_graph g start target path = some p ∧
        (path ++ [start]) <+: p ∧
        p.length ≤ (path ++ [start]).length + freshCount g (path ++ [start])) ∧
    find_path_in_graph cycleGraph "A" "A" [] = some ["A"] ∧
    find_path_in_graph cycleGraph "A" "Z" [] = none := by
  refine ⟨?_, ?_, ?_⟩
  · intro g s t path
    cases h : find_path_in_graph g s t path with
    | none => exact Or.inl rfl
    | some p => exact Or.inr ⟨p, rfl, find_path_some_bound g s t path p h⟩
  · simp [find_path_in_graph, findPathFrom, cycleGraph, dget?]
  · simp [find_path_in_graph, findPathFrom, cycleGraph, dget?]

/-- Lookup of the entry of one view inside the resolved chain of one base
table. -/
def chainLookup (cc : List (String × Chain)) (t v : String) : Option ChainEntry :=
  dget? ((dget? cc t).getD []) v

/-- Level and source of the entry of one view, the two fields the spec
scenarios constrain. -/
def levelSource (cc : List (String × Chain)) (t v : String) : Option (Nat × String) :=
  (chainLookup cc t v).map (fun e => (e.level, e.source))

/-- The three-level scenario: `raw → agg_1min` direct, and definitions that
chain `agg_1hour` on `agg_1min` and `agg_1day` on `agg_1hour`. -/
def acC2 : List (String × Aggs) := [("raw", ⟨["agg_1min"], ["agg_1hour", "agg_1day"]⟩)]

def vdC2 : List (String × String) :=
  [("agg_1hour", "SELECT x FROM agg_1min GROUP BY 1"),
   ("agg_1day", "SELECT x FROM agg_1hour GROUP BY 1")]

/-- The relationship rows of the scenario (one direct, two chained), from
which STEP 6 builds the dependency graph. -/
def rowsC2 : List (String × String) :=
  [("raw", "agg_1min"), ("agg_1min", "agg_1hour"), ("agg_1hour", "agg_1day")]

def gC2 : Graph :=
  [("raw", ["agg_1min"]), ("agg_1min", ["agg_1hour"]), ("agg_1hour", ["agg_1day"])]

theorem gC2_from_rows : build_dependency_graph rowsC2 [] = gC2 := by decide

theorem find_path_gC2_min :
    find_path_in_graph gC2 "raw" "agg_1min" [] = some ["raw", "agg_1min"] := by
  simp [find_path_in_graph, findPathFrom, gC2, dget?]

theorem find_path_gC2_hour :
    find_path_in_graph gC2 "raw" "agg_1hour" [] =
      some ["raw", "agg_1min", "agg_1hour"] := by
  simp [find_path_in_graph, findPathFrom, gC2, dget?]

theorem find_path_gC2_day :
    find_path_in_graph gC2 "raw" "agg_1day" [] =
      some ["raw", "agg_1min", "agg_1hour", "agg_1day"] := by
  simp [find_path_in_graph, findPathFrom, gC2, dget?]

def chainC2 : Chain :=
  [("agg_1min", ⟨1, "raw", ["agg_1hour"]⟩),
   ("agg_1hour", ⟨2, "agg_1min", ["agg_1day"]⟩),
   ("agg_1day", ⟨3, "agg_1hour", []⟩)]

theorem build_acC2_graph_eval :
    build_aggregate_chains acC2 vdC2 (some gC2) = [("raw", chainC2)] := by
  rw [build_with_graph acC2 vdC2 gC2 rfl]
  have hcc2 : phase2 vdC2 (phase1 vdC2 acC2) = [("raw", chainC2)] := by decide
  rw [hcc2]
  simp [phase3, phase3chain, phase3view, chainC2, find_path_gC2_min,
    find_path_gC2_hour, find_path_gC2_day, dget?, dset, dmodify]

/-- C2: the three-level chain scenario.  With the direct relationship
`raw → agg_1min` and indirect aggregates `agg_1hour`, `agg_1day` whose
definitions chain them on `agg_1min` and `agg_1hour` respectively, the
resolver places `agg_1min` at level 1 with source `raw`, `agg_1hour` at
level 2 with source `agg_1min`, and `agg_1day` at level 3 with source
`agg_1hour` — both without a dependency graph and with the graph built
from the relationship rows of the scenario. -/
theorem three_level_chain_scenario :
    (levelSource (build_aggregate_chains acC2 vdC2 none) "raw" "agg_1min" =
        some (1, "raw") ∧
      levelSource (build_aggregate_chains acC2 vdC2 none) "raw" "agg_1hour" =
        some (2, "agg_1min") ∧
      levelSource (build_aggregate_chains acC2 vdC2 none) "raw" "agg_1day" =
        some (3, "agg_1hour")) ∧
    (levelSource (build_aggregate_chains acC2 vdC2 (some (build_dependency_graph rowsC2 [])))
        "raw" "agg_1min" = some (1, "raw") ∧
      levelSource (build_aggregate_chains acC2 vdC2 (some (build_dependency_graph rowsC2 [])))
        "raw" "agg_1hour" = some (2, "agg_1min") ∧
      levelSource (build_aggregate_chains acC2 vdC2 (some (build_dependency_graph rowsC2 [])))
        "raw" "agg_1day" = some (3, "agg_1hour")) := by
  constructor
  · refine ⟨?_, ?_, ?_⟩ <;> decide
  · rw [gC2_from_rows, build_acC2_graph_eval]
    refine ⟨?_, ?_, ?_⟩ <;> decide

/-! Presence lemmas: which keys the heuristic phase creates and how they
survive to the final result. -/

theorem build_no_graph (ac : List (String × Aggs)) (vd : List (String × String)) :
    build_aggregate_chains ac vd none = phase2 vd (phase1 vd ac) := rfl

theorem build_empty_graph (ac : List (String × Aggs)) (vd : List (String × String))
    (g : Graph) (h : g.isEmpty = true) :
    build_aggregate_chains ac vd (some g) = phase2 vd (phase1 vd ac) := by
  simp only [build_aggregate_chains, h, if_true]

theorem step2run_creates {vd : List (String × String)} {v : String} :
    ∀ {ds : List String} {ch : Chain},
      (∃ d ∈ ds, defContains vd v d = true ∧ (dget? ch d).isSome = true) →
      (dget? (step2run vd v ds ch) v).isSome = true := by
  intro ds
  induction ds with
  | nil =>
    rintro ch ⟨d, hd, _⟩
    cases hd
  | cons d0 rest ih =>
    rintro ch ⟨d, hd, hdef, hsome⟩
    simp only [step2run]
    rcases List.mem_cons.mp hd with rfl | hdrest
    · have h2 : dmem ch d = true := hsome
      rw [if_pos hdef, if_pos h2]
      apply isSome_step2run
      rw [dget?_dset_self]
      rfl
    · apply ih
      refine ⟨d, hdrest, hdef, ?_⟩
      by_cases h1 : defContains vd v d0 = true
      · by_cases h2 : dmem ch d0 = true
        · rw [if_pos h1, if_pos h2]
          exact isSome_dget?_dset _ _ _ _ (isSome_dget?_dmodify _ _ _ _ hsome)
        · rw [if_pos h1, if_neg h2]; exact hsome
      · rw [if_neg h1]; exact hsome

theorem foldl_dset_present (table : String) :
    ∀ (ds : List String) (ch : Chain) (d : String), d ∈ ds →
      (dget? (ds.foldl (fun ch agg => dset ch agg (⟨1, table, []⟩ : ChainEntry)) ch) d).isSome
        = true := by
  intro ds
  induction ds with
  | nil =>
    intro ch d hd
    cases hd
  | cons d0 rest ih =>
    intro ch d hd
    simp only [List.foldl_cons]
    rcases List.mem_cons.mp hd with rfl | hdrest
    · refine foldl_invariant (fun ch : Chain => (dget? ch d).isSome = true) _
        (fun ch agg h => isSome_dget?_dset _ _ _ _ h) _ _ ?_
      dsimp only
      rw [dget?_dset_self]
      rfl
    · exact ih _ d hdrest

theorem indirect_fold_creates {vd : List (String × String)}
    {directs inds0 : List String} {v d : String}
    (hd : d ∈ directs) (hdef : defContains vd v d = true) :
    ∀ {inds : List String} {ch : Chain}, v ∈ inds → (dget? ch d).isSome = true →
      (dget? (inds.foldl
          (fun ch ind => step3run vd ind inds0 (step2run vd ind directs ch)) ch) v).isSome
        = true := by
  intro inds
  induction inds with
  | nil =>
    intro ch hv _
    cases hv
  | cons i0 rest ih =>
    intro ch hv hsome
    simp only [List.foldl_cons]
    rcases List.mem_cons.mp hv with rfl | hvrest
    · refine foldl_invariant (fun ch : Chain => (dget? ch v).isSome = true) _
        (fun ch ind h => isSome_step3run (isSome_step2run h)) _ _ ?_
      exact isSome_step3run (step2run_creates ⟨d, hd, hdef, hsome⟩)
    · exact ih hvrest (isSome_step3run (isSome_step2run hsome))

theorem phase1table_preserves_entry {vd : List (String × String)}
    {cc : List (String × Chain)} {table : String} {aggs : Aggs} {t v : String}
    (h : ∃ ch, dget? cc t = some ch ∧ (dget? ch v).isSome = true) :
    ∃ ch, dget? (phase1table vd cc table aggs) t = some ch ∧
      (dget? ch v).isSome = true := by
  unfold phase1table
  by_cases hd : aggs.direct.isEmpty
  · rw [if_pos hd]; exact h
  · rw [if_neg hd]
    obtain ⟨ch, hch, hv⟩ := h
    by_cases ht : t = table
    · subst ht
      refine ⟨_, dget?_dset_self _ _ _, ?_⟩
      have hch0 : (dget? ((dget? cc t).getD []) v).isSome = true := by
        rw [hch]; exact hv
      have hv1 : (dget? (aggs.direct.foldl
          (fun ch agg => dset ch agg (⟨1, t, []⟩ : ChainEntry))
          ((dget? cc t).getD [])) v).isSome = true :=
        foldl_invariant (fun ch : Chain => (dget? ch v).isSome = true) _
          (fun ch agg h => isSome_dget?_dset _ _ _ _ h) _ _ hch0
      exact foldl_invariant (fun ch : Chain => (dget? ch v).isSome = true) _
        (fun ch ind h => isSome_step3run (isSome_step2run h)) _ _ hv1
    · rw [dget?_dset_ne _ _ _ _ ht]
      exact ⟨ch, hch, hv⟩

theorem phase1_creates {vd : List (String × String)} {t v d : String} {aggs : Aggs}
    (hdir : aggs.direct.isEmpty = false)
    (hv : v ∈ aggs.indirect) (hd : d ∈ aggs.direct)
    (hdef : defContains vd v d = true) :
    ∀ {ac : List (String × Aggs)} {cc : List (String × Chain)},
      dget? ac t = some aggs →
      ∃ ch, dget? (ac.foldl (fun cc p => phase1table vd cc p.1 p.2) cc) t = some ch ∧
        (dget? ch v).isSome = true := by
  intro ac
  induction ac with
  | nil =>
    intro cc hac
    cases hac
  | cons p rest ih =>
    intro cc hac
    obtain ⟨k, a⟩ := p
    simp only [List.foldl_cons]
    by_cases hk : t = k
    · subst hk
      rw [dget?] at hac
      rw [if_pos rfl] at hac
      cases hac
      refine foldl_invariant
        (fun cc2 : List (String × Chain) => ∃ ch, dget? cc2 t = some ch ∧
          (dget? ch v).isSome = true) _
        (fun cc2 q h => phase1table_preserves_entry h) _ _ ?_
      unfold phase1table
      rw [if_neg (by rw [hdir]; exact Bool.false_ne_true)]
      refine ⟨_, dget?_dset_self _ _ _, ?_⟩
      exact indirect_fold_creates hd hdef hv
        (foldl_dset_present t aggs.direct _ d hd)
    · rw [dget?, if_neg hk] at hac
      exact ih hac

/-- C5 amended, positive half: an indirect aggregate whose definition text
contains the name of one of the direct aggregates of the base table is
always present as a key of the resolved chain of the table, whatever the
dependency
graph. -/
theorem indirect_with_match_included
    (ac : List (String × Aggs)) (vd : List (String × String)) (dg : Option Graph)
    (t v d : String) (aggs : Aggs)
    (hac : dget? ac t = some aggs)
    (hdir : aggs.direct.isEmpty = false)
    (hv : v ∈ aggs.indirect)
    (hd : d ∈ aggs.direct)
    (hdef : defContains vd v d = true) :
    (chainLookup (build_aggregate_chains ac vd dg) t v).isSome = true := by
  obtain ⟨ch1, hch1, hv1⟩ :=
    @phase1_creates vd t v d aggs hdir hv hd hdef ac [] hac
  have hwf1 := WFcc_phase1 vd ac
  have hcc2 : dget? (phase2 vd (phase1 vd ac)) t = some (phase2table vd ch1) := by
    rw [dget?_phase2 vd _ t hwf1.1]
    rw [show phase1 vd ac = ac.foldl (fun cc p => phase1table vd cc p.1 p.2) [] from rfl]
    rw [hch1]
    rfl
  have hv2 : (dget? (phase2table vd ch1) v).isSome = true := by
    rw [dget?_isSome_iff_mem_keys, keys_phase2table]
    exact (dget?_isSome_iff_mem_keys ch1 v).mp hv1
  cases dg with
  | none =>
    rw [build_no_graph]
    unfold chainLookup
    rw [hcc2]
    exact hv2
  | some g =>
    by_cases hge : g.isEmpty
    · rw [build_empty_graph ac vd g hge]
      unfold chainLookup
      rw [hcc2]
      exact hv2
    · rw [build_with_graph ac vd g (by rw [Bool.not_eq_true] at hge; exact hge)]
      have hwf2 := WFcc_phase2 vd _ hwf1
      unfold chainLookup
      rw [dget?_phase3 g _ t hwf2.1, hcc2]
      show (dget? (phase3chain g t (phase2table vd ch1)) v).isSome = true
      rw [dget?_isSome_iff_mem_keys, keys_phase3chain, keys_phase2table]
      exact (dget?_isSome_iff_mem_keys ch1 v).mp hv1

/-- C5 counterexample: base table `t` has direct aggregate `d` and indirect
aggregate `v`, but no view definition determines the source of `v`.  The
claim
requires `v` to remain in the chain with level defaulted to 2; the code
instead drops `v` entirely: the chain of `t` exists but has no key
`v`. -/
theorem unresolvable_indirect_dropped :
    (dget? (build_aggregate_chains [("t", ⟨["d"], ["v"]⟩)] [] none) "t").isSome = true ∧
    chainLookup (build_aggregate_chains [("t", ⟨["d"], ["v"]⟩)] [] none) "t" "v" = none := by
  decide

/-- Witness for the amended C5 on a concrete input with a matching
definition. -/
theorem indirect_with_match_included_witness :
    (chainLookup (build_aggregate_chains [("t", ⟨["d"], ["v"]⟩)] [("v", "z d z")] none)
      "t" "v").isSome = true :=
  indirect_with_match_included [("t", ⟨["d"], ["v"]⟩)] [("v", "z d z")] none
    "t" "v" "d" ⟨["d"], ["v"]⟩ (by decide) (by decide) (by decide) (by decide) (by decide)

/-! The tie-break behaviour of the heuristic placement loops. -/

theorem step2run_no_match {vd : List (String × String)} {v : String} :
    ∀ {ds : List String} {ch : Chain},
      (∀ d ∈ ds, defContains vd v d = false) → step2run vd v ds ch = ch := by
  intro ds
  induction ds with
  | nil => intro ch _; rfl
  | cons d0 rest ih =>
    intro ch h
    simp only [step2run]
    rw [if_neg (by rw [h d0 (List.mem_cons_self _ _)]; exact Bool.false_ne_true)]
    exact ih (fun d hd => h d (List.mem_cons_of_mem _ hd))

theorem step3run_no_match {vd : List (String × String)} {v : String} :
    ∀ {ds : List String} {ch : Chain},
      (∀ l ∈ ds, ¬(v ≠ l ∧ defContains vd v l = true)) → step3run vd v ds ch = ch := by
  intro ds
  induction ds with
  | nil => intro ch _; rfl
  | cons l0 rest ih =>
    intro ch h
    simp only [step3run]
    rw [if_neg (h l0 (List.mem_cons_self _ _))]
    exact ih (fun l hl => h l (List.mem_cons_of_mem _ hl))

/-- C6 counterexample: the definition of the indirect view `v` contains both
direct aggregates, `d1` first in iteration order; the recorded source is
`d2`, the last match, not the first. -/
theorem tie_break_counterexample :
    defContains [("v", "see d1 and d2")] "v" "d1" = true ∧
    defContains [("v", "see d1 and d2")] "v" "d2" = true ∧
    levelSource
      (build_aggregate_chains [("t", ⟨["d1", "d2"], ["v"]⟩)]
        [("v", "see d1 and d2")] none) "t" "v" = some (2, "d2") := by
  decide

/-- C6 amended: in the step-2 and step-3 placement loops, when several
candidates satisfy the substring test (each match overwrites the entry, no
loop break), the candidate that comes last in iteration order is the one
recorded as the source of the view (level 2 from the direct-aggregate loop,
level 3 from the level-2 loop). -/
theorem heuristic_last_match_wins :
    (∀ (vd : List (String × String)) (v : String) (ds : List String) (ch : Chain)
      (dl : String),
      (∀ d ∈ ds, (dget? ch d).isSome = true) →
      v ∉ ds →
      (ds.filter (fun d => defContains vd v d)).getLast? = some dl →
      dget? (step2run vd v ds ch) v = some ⟨2, dl, []⟩) ∧
    (∀ (vd : List (String × String)) (v : String) (ds : List String) (ch : Chain)
      (l2 : String),
      (∀ l ∈ ds, l ≠ v → (dget? ch l).isSome = true) →
      (ds.filter (fun l => decide (v ≠ l) && defContains vd v l)).getLast? = some l2 →
      dget? (step3run vd v ds ch) v = some ⟨3, l2, []⟩) := by
  constructor
  · intro vd v ds
    induction ds with
    | nil =>
      intro ch dl _ _ hl
      simp at hl
    | cons d0 rest ih =>
      intro ch dl hp hnv hl
      have hnv0 : v ≠ d0 := fun hc => hnv (hc ▸ List.mem_cons_self _ _)
      have hnvr : v ∉ rest := fun hc => hnv (List.mem_cons_of_mem _ hc)
      have hpr : ∀ {ch2 : Chain}, (∀ d ∈ rest, (dget? ch2 d).isSome = true) →
          ∀ d ∈ rest, (dget? (if defContains vd v d0 = true then
            if dmem ch2 d0 = true then
              dset (dmodify (fun e => { e with children := e.children ++ [v] }) ch2 d0)
                v ⟨2, d0, []⟩
            else ch2
          else ch2) d).isSome = true := by
        intro ch2 hp2 d hd
        by_cases h1 : defContains vd v d0 = true
        · by_cases h2 : dmem ch2 d0 = true
          · rw [if_pos h1, if_pos h2]
            exact isSome_dget?_dset _ _ _ _ (isSome_dget?_dmodify _ _ _ _ (hp2 d hd))
          · rw [if_pos h1, if_neg h2]; exact hp2 d hd
        · rw [if_neg h1]; exact hp2 d hd
      simp only [step2run]
      cases hrf : rest.filter (fun d => defContains vd v d) with
      | nil =>
        have hall : ∀ d ∈ rest, defContains vd v d = false := by
          intro d hd
          have := List.filter_eq_nil_iff.mp hrf d hd
          cases hdc : defContains vd v d
          · rfl
          · exact absurd hdc this
        by_cases hd0 : defContains vd v d0 = true
        · rw [List.filter_cons, if_pos (by simpa using hd0), hrf] at hl
          simp only [List.getLast?_singleton, Option.some.injEq] at hl
          subst hl
          rw [step2run_no_match hall]
          rw [if_pos hd0,
            if_pos (show dmem ch d0 = true from hp d0 (List.mem_cons_self _ _))]
          rw [dget?_dset_self]
        · exfalso
          rw [List.filter_cons, if_neg (by simpa using hd0), hrf] at hl
          simp at hl
      | cons r rs =>
        have hl2 : (rest.filter (fun d => defContains vd v d)).getLast? = some dl := by
          rw [List.filter_cons] at hl
          by_cases hd0 : defContains vd v d0 = true
          · rw [if_pos (by simpa using hd0), hrf] at hl
            rw [hrf]
            rwa [List.getLast?_cons_cons] at hl
          · rwa [if_neg (by simpa using hd0)] at hl
        exact ih _ dl (hpr (fun d hd => hp d (List.mem_cons_of_mem _ hd))) hnvr hl2
  · intro vd v ds
    induction ds with
    | nil =>
      intro ch l2 _ hl
      simp at hl
    | cons l0 rest ih =>
      intro ch l2 hp hl
      have hpr : ∀ {ch2 : Chain}, (∀ l ∈ rest, l ≠ v → (dget? ch2 l).isSome = true) →
          ∀ l ∈ rest, l ≠ v → (dget? (if v ≠ l0 ∧ defContains vd v l0 = true then
            if dmem ch2 l0 = true then
              dset (dmodify (fun e => { e with children := e.children ++ [v] }) ch2 l0)
                v ⟨3, l0, []⟩
            else ch2
          else ch2) l).isSome = true := by
        intro ch2 hp2 l hlm hlv
        by_cases h1 : v ≠ l0 ∧ defContains vd v l0 = true
        · by_cases h2 : dmem ch2 l0 = true
          · rw [if_pos h1, if_pos h2]
            exact isSome_dget?_dset _ _ _ _ (isSome_dget?_dmodify _ _ _ _ (hp2 l hlm hlv))
          · rw [if_pos h1, if_neg h2]; exact hp2 l hlm hlv
        · rw [if_neg h1]; exact hp2 l hlm hlv
      simp only [step3run]
      cases hrf : rest.filter (fun l => decide (v ≠ l) && defContains vd v l) with
      | nil =>
        have hall : ∀ l ∈ rest, ¬(v ≠ l ∧ defContains vd v l = true) := by
          intro l hlm hc
          have h0 := List.filter_eq_nil_iff.mp hrf l hlm
          apply h0
          rw [Bool.and_eq_true, decide_eq_true_iff]
          exact ⟨hc.1, hc.2⟩
        by_cases hl0 : v ≠ l0 ∧ defContains vd v l0 = true
        · rw [List.filter_cons,
            if_pos (by
              simp only [Bool.and_eq_true, decide_eq_true_iff]
              exact ⟨hl0.1, hl0.2⟩),
            hrf] at hl
          simp only [List.getLast?_singleton, Option.some.injEq] at hl
          subst hl
          rw [step3run_no_match hall]
          rw [if_pos hl0,
            if_pos (show dmem ch l0 = true from
              hp l0 (List.mem_cons_self _ _) (fun hc => hl0.1 hc.symm))]
          rw [dget?_dset_self]
        · exfalso
          rw [List.filter_cons,
            if_neg (by
              simp only [Bool.and_eq_true, decide_eq_true_iff]
              intro hc
              exact hl0 ⟨hc.1, hc.2⟩),
            hrf] at hl
          simp at hl
      | cons r rs =>
        have hl2 : (rest.filter (fun l => decide (v ≠ l) && defContains vd v l)).getLast?
            = some l2 := by
          rw [List.filter_cons] at hl
          by_cases hl0 : (decide (v ≠ l0) && defContains vd v l0) = true
          · rw [if_pos (by simpa using hl0), hrf] at hl
            rw [hrf]
            rwa [List.getLast?_cons_cons] at hl
          · rwa [if_neg (by simpa using hl0)] at hl
        exact ih _ l2 (hpr (fun l hlm hlv => hp l (List.mem_cons_of_mem _ hlm) hlv)) hl2

/-- Witness for the amended C6 on concrete inputs with two matches in each
loop: the last candidate wins. -/
theorem heuristic_last_match_wins_witness :
    dget? (step2run [("v", "a d1 b d2 c")] "v" ["d1", "d2"]
      [("d1", ⟨1, "t", []⟩), ("d2", ⟨1, "t", []⟩)]) "v" = some ⟨2, "d2", []⟩ ∧
    dget? (step3run [("v", "w1 w2")] "v" ["w1", "w2"]
      [("w1", ⟨2, "t", []⟩), ("w2", ⟨2, "t", []⟩)]) "v" = some ⟨3, "w2", []⟩ :=
  ⟨heuristic_last_match_wins.1 [("v", "a d1 b d2 c")] "v" ["d1", "d2"]
      [("d1", ⟨1, "t", []⟩), ("d2", ⟨1, "t", []⟩)] "d2"
      (by decide) (by decide) (by decide),
    heuristic_last_match_wins.2 [("v", "w1 w2")] "v" ["w1", "w2"]
      [("w1", ⟨2, "t", []⟩), ("w2", ⟨2, "t", []⟩)] "w2"
      (by decide) (by decide)⟩

/-! The dependency-graph builder: duplicate suppression and idempotence. -/

theorem dget?_add_edge_self (g : Graph) (s t : String) :
    dget? (add_edge g s t) s =
      some (if t ∈ (dget? g s).getD [] then (dget? g s).getD []
            else (dget? g s).getD [] ++ [t]) := by
  unfold add_edge
  by_cases hm : dmem g s = true
  · obtain ⟨l, hl⟩ : ∃ l, dget? g s = some l := by
      have h2 : (dget? g s).isSome = true := hm
      cases hg : dget? g s
      · rw [hg] at h2; cases h2
      · exact ⟨_, rfl⟩
    rw [if_pos hm]
    dsimp only
    rw [hl]
    by_cases ht : t ∈ (some l).getD []
    · rw [if_pos ht, if_pos ht, hl]
      rfl
    · rw [if_neg ht, if_neg ht, dget?_dmodify_self, hl]
      rfl
  · have hn : dget? g s = none := by
      cases hg : dget? g s
      · rfl
      · exact absurd (by unfold dmem; rw [hg]; rfl) hm
    rw [if_neg hm]
    dsimp only
    rw [dget?_dset_self, hn]
    have ht1 : t ∉ ((some ([] : List String)).getD []) := by simp
    have ht2 : t ∉ ((none : Option (List String)).getD []) := by simp
    rw [if_neg ht1, if_neg ht2, dget?_dmodify_self, dget?_dset_self]
    rfl

theorem dget?_add_edge_ne (g : Graph) (s t s2 : String) (h : s2 ≠ s) :
    dget? (add_edge g s t) s2 = dget? g s2 := by
  unfold add_edge
  by_cases hm : dmem g s = true
  · rw [if_pos hm]
    dsimp only
    split
    · rfl
    · rw [dget?_dmodify_ne _ _ _ _ h]
  · rw [if_neg hm]
    dsimp only
    split
    · rw [dget?_dset_ne _ _ _ _ h]
    · rw [dget?_dmodify_ne _ _ _ _ h, dget?_dset_ne _ _ _ _ h]

theorem edge_present_add_edge (g : Graph) (s t : String) :
    t ∈ (dget? (add_edge g s t) s).getD [] := by
  rw [dget?_add_edge_self]
  by_cases ht : t ∈ (dget? g s).getD []
  · rw [if_pos ht]
    exact ht
  · rw [if_neg ht]
    simp

theorem add_edge_no_op {g : Graph} {s t : String}
    (h : t ∈ (dget? g s).getD []) : add_edge g s t = g := by
  have hm : dmem g s = true := by
    cases hg : dget? g s
    · rw [hg] at h; cases h
    · unfold dmem; rw [hg]; rfl
  unfold add_edge
  rw [if_pos hm]
  dsimp only
  rw [if_pos h]

theorem edge_mono (g : Graph) (s t s2 t2 : String)
    (h : t2 ∈ (dget? g s2).getD []) : t2 ∈ (dget? (add_edge g s t) s2).getD [] := by
  by_cases h2 : s2 = s
  · subst h2
    rw [dget?_add_edge_self]
    by_cases ht : t ∈ (dget? g s2).getD []
    · rw [if_pos ht]; exact h
    · rw [if_neg ht]
      simp only [Option.getD_some, List.mem_append]
      exact Or.inl h
  · rw [dget?_add_edge_ne _ _ _ _ h2]
    exact h

theorem build_graph_edges_present :
    ∀ (rows : List (String × String)) (g0 : Graph), ∀ r ∈ rows,
      r.2 ∈ (dget? (build_dependency_graph rows g0) r.1).getD [] := by
  intro rows
  induction rows with
  | nil =>
    intro g0 r hr
    cases hr
  | cons r0 rest ih =>
    intro g0 r hr
    rcases List.mem_cons.mp hr with rfl | hrr
    · unfold build_dependency_graph
      simp only [List.foldl_cons]
      exact foldl_invariant
        (fun g : Graph => r.2 ∈ (dget? g r.1).getD []) _
        (fun g q h => edge_mono g q.1 q.2 r.1 r.2 h) _ _
        (edge_present_add_edge g0 r.1 r.2)
    · exact ih _ r hrr

theorem build_graph_no_op :
    ∀ (rows : List (String × String)) (g : Graph),
      (∀ r ∈ rows, r.2 ∈ (dget? g r.1).getD []) →
      build_dependency_graph rows g = g := by
  intro rows
  induction rows with
  | nil =>
    intro g _
    rfl
  | cons r0 rest ih =>
    intro g h
    unfold build_dependency_graph
    simp only [List.foldl_cons]
    rw [add_edge_no_op (h r0 (List.mem_cons_self _ _))]
    exact ih g (fun r hr => h r (List.mem_cons_of_mem _ hr))

/-- C7: the graph builder is duplicate-suppressing, order-preserving and
idempotent.  `add_edge` appends the target to the adjacency list of the
source
only when absent (keeping the existing order) and touches no other key;
adding an existing edge is the identity; and rebuilding from the same row
list — or from the row list repeated — returns the identical graph. -/
theorem graph_builder_idempotent :
    (∀ (g : Graph) (s t : String),
      dget? (add_edge g s t) s =
        some (if t ∈ (dget? g s).getD [] then (dget? g s).getD []
              else (dget? g s).getD [] ++ [t]) ∧
      (∀ s2, s2 ≠ s → dget? (add_edge g s t) s2 = dget? g s2)) ∧
    (∀ (g : Graph) (s t : String), add_edge (add_edge g s t) s t = add_edge g s t) ∧
    (∀ rows : List (String × String),
      build_dependency_graph rows (build_dependency_graph rows []) =
        build_dependency_graph rows []) ∧
    (∀ rows : List (String × String),
      build_dependency_graph (rows ++ rows) [] = build_dependency_graph rows []) := by
  have hidem : ∀ (g : Graph) (s t : String),
      add_edge (add_edge g s t) s t = add_edge g s t :=
    fun g s t => add_edge_no_op (edge_present_add_edge g s t)
  have htwice : ∀ rows : List (String × String),
      build_dependency_graph rows (build_dependency_graph rows []) =
        build_dependency_graph rows [] :=
    fun rows => build_graph_no_op rows _ (build_graph_edges_present rows [])
  refine ⟨fun g s t => ⟨dget?_add_edge_self g s t, fun s2 h => dget?_add_edge_ne g s t s2 h⟩,
    hidem, htwice, ?_⟩
  intro rows
  show (rows ++ rows).foldl (fun g r => add_edge g r.1 r.2) [] = _
  rw [List.foldl_append]
  exact htwice rows

/-- Witness for C7 at concrete inputs: a fresh target is appended, the
other key is untouched, and a repeated row list builds the same graph. -/
theorem graph_builder_idempotent_witness :
    dget? (add_edge [("a", ["b"])] "a" "c") "x" = dget? [("a", ["b"])] "x" ∧
    add_edge (add_edge [] "a" "b") "a" "b" = add_edge [] "a" "b" ∧
    build_dependency_graph ([("a", "b")] ++ [("a", "b")]) [] =
      build_dependency_graph [("a", "b")] [] :=
  ⟨(graph_builder_idempotent.1 [("a", ["b"])] "a" "c").2 "x" (by decide),
    graph_builder_idempotent.2.1 [] "a" "b",
    graph_builder_idempotent.2.2.2 [("a", "b")]⟩

/-! No-self-reference: the corrected invariant and its counterexample. -/

theorem foldl_invariant_mem {α β : Type} (P : β → Prop) (f : β → α → β) :
    ∀ (l : List α) (b : β), (∀ a ∈ l, ∀ b2, P b2 → P (f b2 a)) → P b → P (l.foldl f b) := by
  intro l
  induction l with
  | nil =>
    intro b _ hb
    exact hb
  | cons a rest ih =>
    intro b h hb
    exact ih _ (fun a2 ha2 b2 hb2 => h a2 (List.mem_cons_of_mem _ ha2) b2 hb2)
      (h a (List.mem_cons_self _ _) b hb)

/-- No base table occurs as a key of its own chain. -/
def NoSelfKey (cc : List (String × Chain)) : Prop :=
  ∀ t ch, dget? cc t = some ch → dget? ch t = none

theorem NoSelfKey_phase1table {vd : List (String × String)}
    {cc : List (String × Chain)} {table : String} {aggs : Aggs}
    (hself : table ∉ aggs.direct ∧ table ∉ aggs.indirect)
    (hP : NoSelfKey cc) : NoSelfKey (phase1table vd cc table aggs) := by
  unfold phase1table
  by_cases hd : aggs.direct.isEmpty
  · rw [if_pos hd]; exact hP
  · rw [if_neg hd]
    intro t ch hc
    by_cases ht : t = table
    · subst ht
      rw [dget?_dset_self] at hc
      cases hc
      have hch0 : dget? ((dget? cc t).getD []) t = none := by
        cases hg : dget? cc t with
        | none => rfl
        | some ch0 => exact hP t ch0 hg
      have hch1 : dget? (aggs.direct.foldl
          (fun ch agg => dset ch agg (⟨1, t, []⟩ : ChainEntry))
          ((dget? cc t).getD [])) t = none := by
        refine foldl_invariant_mem (fun ch : Chain => dget? ch t = none) _ _ _ ?_ hch0
        intro agg hagg ch2 h2
        exact dget?_dset_none (fun hc => hself.1 (hc ▸ hagg)) h2
      refine foldl_invariant_mem (fun ch : Chain => dget? ch t = none) _ _ _ ?_ hch1
      intro ind hind ch2 h2
      have hne : t ≠ ind := fun hc => hself.2 (hc ▸ hind)
      exact dget?_step3run_none hne (dget?_step2run_none hne h2)
    · rw [dget?_dset_ne _ _ _ _ ht] at hc
      exact hP t ch hc

theorem NoSelfKey_phase2 {vd : List (String × String)} {cc : List (String × Chain)}
    (hP : NoSelfKey cc) : NoSelfKey (phase2 vd cc) := by
  unfold phase2
  refine foldl_invariant NoSelfKey _ ?_ _ _ hP
  intro cc2 k hP2
  intro t ch hc
  by_cases ht : t = k
  · subst ht
    rw [dget?_dset_self] at hc
    cases hc
    rw [dget?_eq_none_iff, keys_phase2table]
    cases hg : dget? cc2 t with
    | none => simp
    | some ch0 =>
      rw [← dget?_eq_none_iff]
      simpa using hP2 t ch0 hg
  · rw [dget?_dset_ne _ _ _ _ ht] at hc
    exact hP2 t ch hc

theorem NoSelfKey_phase3 {g : Graph} {cc : List (String × Chain)}
    (hP : NoSelfKey cc) : NoSelfKey (phase3 g cc) := by
  unfold phase3
  refine foldl_invariant NoSelfKey _ ?_ _ _ hP
  intro cc2 k hP2
  intro t ch hc
  by_cases ht : t = k
  · subst ht
    rw [dget?_dset_self] at hc
    cases hc
    rw [dget?_eq_none_iff, keys_phase3chain]
    cases hg : dget? cc2 t with
    | none => simp
    | some ch0 =>
      rw [← dget?_eq_none_iff]
      simpa using hP2 t ch0 hg
  · rw [dget?_dset_ne _ _ _ _ ht] at hc
    exact hP2 t ch hc

/-- C8 counterexample: an input that lists the base table among its own
direct aggregates makes the base table a key inside its own chain, so the
claim does not hold for every input. -/
theorem no_self_reference_counterexample :
    chainLookup (build_aggregate_chains [("t", ⟨["t"], []⟩)] [] none) "t" "t" =
      some ⟨1, "t", []⟩ := by
  decide

/-- C8 amended: when no base table lists itself among its own direct or
indirect aggregates (as catalog data never does), no base table appears as
a key inside its own resolved chain. -/
theorem no_self_reference_of_no_self_listing
    (ac : List (String × Aggs)) (vd : List (String × String)) (dg : Option Graph)
    (hself : ∀ p ∈ ac, p.1 ∉ p.2.direct ∧ p.1 ∉ p.2.indirect) :
    ∀ t, chainLookup (build_aggregate_chains ac vd dg) t t = none := by
  have h1 : NoSelfKey (phase1 vd ac) := by
    unfold phase1
    refine foldl_invariant_mem NoSelfKey _ _ _ ?_ ?_
    · intro p hp cc2 hP
      exact NoSelfKey_phase1table (hself p hp) hP
    · intro t ch h
      cases h
  have h2 : NoSelfKey (phase2 vd (phase1 vd ac)) := NoSelfKey_phase2 h1
  have hfinal : NoSelfKey (build_aggregate_chains ac vd dg) := by
    cases dg with
    | none => rw [build_no_graph]; exact h2
    | some g =>
      by_cases hge : g.isEmpty
      · rw [build_empty_graph ac vd g hge]; exact h2
      · rw [build_with_graph ac vd g (by rw [Bool.not_eq_true] at hge; exact hge)]
        exact NoSelfKey_phase3 h2
  intro t
  unfold chainLookup
  cases hc : dget? (build_aggregate_chains ac vd dg) t with
  | none => rfl
  | some ch => exact hfinal t ch hc

/-- Witness for the amended C8 on a concrete well-formed input. -/
theorem no_self_reference_witness :
    chainLookup (build_aggregate_chains [("t", ⟨["a"], []⟩)] [] none) "t" "t" = none :=
  no_self_reference_of_no_self_listing [("t", ⟨["a"], []⟩)] [] none (by decide) "t"

/-! The health-metrics special case. -/

theorem health_step_preserves {current : String} {ac : List (String × Aggs)}
    (h : (dget? ac "health_metrics_raw").isSome = true) :
    (dget? (match dget? ac "health_metrics_raw" with
      | none => ac
      | some aggs =>
        if current ∈ aggs.direct ∨ current ∈ aggs.indirect then ac
        else dmodify (fun a => { a with indirect := a.indirect ++ [current] })
          ac "health_metrics_raw") "health_metrics_raw").isSome = true := by
  cases hg : dget? ac "health_metrics_raw" with
  | none => rw [hg] at h; cases h
  | some aggs =>
    dsimp only
    by_cases hm : current ∈ aggs.direct ∨ current ∈ aggs.indirect
    · rw [if_pos hm]; exact h
    · rw [if_neg hm]
      exact isSome_dget?_dmodify _ _ _ _ h

theorem health_step_mono {current v : String} {ac : List (String × Aggs)}
    (h : ∃ aggs, dget? ac "health_metrics_raw" = some aggs ∧
      (v ∈ aggs.direct ∨ v ∈ aggs.indirect)) :
    ∃ aggs, dget? (match dget? ac "health_metrics_raw" with
      | none => ac
      | some aggs =>
        if current ∈ aggs.direct ∨ current ∈ aggs.indirect then ac
        else dmodify (fun a => { a with indirect := a.indirect ++ [current] })
          ac "health_metrics_raw") "health_metrics_raw" = some aggs ∧
      (v ∈ aggs.direct ∨ v ∈ aggs.indirect) := by
  obtain ⟨aggs, hg, hv⟩ := h
  rw [hg]
  dsimp only
  by_cases hm : current ∈ aggs.direct ∨ current ∈ aggs.indirect
  · rw [if_pos hm]
    exact ⟨aggs, hg, hv⟩
  · rw [if_neg hm]
    refine ⟨{ aggs with indirect := aggs.indirect ++ [current] }, ?_, ?_⟩
    · rw [dget?_dmodify_self, hg]
      rfl
    · rcases hv with hv | hv
      · exact Or.inl hv
      · exact Or.inr (List.mem_append.mpr (Or.inl hv))

theorem health_fold_covers :
    ∀ (l : List String) (ac : List (String × Aggs)),
      (dget? ac "health_metrics_raw").isSome = true →
      ∀ v ∈ l,
        ∃ aggs, dget? (l.foldl
          (fun ac current =>
            match dget? ac "health_metrics_raw" with
            | none => ac
            | some aggs =>
              if current ∈ aggs.direct ∨ current ∈ aggs.indirect then ac
              else dmodify (fun a => { a with indirect := a.indirect ++ [current] })
                ac "health_metrics_raw") ac) "health_metrics_raw" = some aggs ∧
          (v ∈ aggs.direct ∨ v ∈ aggs.indirect) := by
  intro l
  induction l with
  | nil =>
    intro ac _ v hv
    cases hv
  | cons c rest ih =>
    intro ac hk v hv
    simp only [List.foldl_cons]
    rcases List.mem_cons.mp hv with rfl | hvr
    · refine foldl_invariant
        (fun ac2 : List (String × Aggs) => ∃ aggs,
          dget? ac2 "health_metrics_raw" = some aggs ∧
            (v ∈ aggs.direct ∨ v ∈ aggs.indirect)) _
        (fun ac2 c2 h => health_step_mono h) _ _ ?_
      obtain ⟨aggs, hg⟩ : ∃ aggs, dget? ac "health_metrics_raw" = some aggs := by
        cases hg : dget? ac "health_metrics_raw"
        · rw [hg] at hk; cases hk
        · exact ⟨_, rfl⟩
      rw [hg]
      dsimp only
      by_cases hm : v ∈ aggs.direct ∨ v ∈ aggs.indirect
      · rw [if_pos hm]
        exact ⟨aggs, hg, hm⟩
      · rw [if_neg hm]
        refine ⟨{ aggs with indirect := aggs.indirect ++ [v] }, ?_, ?_⟩
        · rw [dget?_dmodify_self, hg]
          rfl
        · exact Or.inr (List.mem_append.mpr (Or.inr (List.mem_singleton.mpr rfl)))
    · exact ih _ (health_step_preserves hk) v hvr

/-- C9: the hardcoded health-metrics special case of
`get_all_continuous_aggregates`.  The function takes only the catalog view
names and the aggregate chain — no view-definition text, no relationship
rows.  When at least two catalog views named `health_metrics_*` exist and
`health_metrics_raw` has an `agg_chain` entry, every view after the first
in the lexicographically sorted list ends up listed among
the direct or indirect aggregates of `health_metrics_raw` (appended to the
indirect list when it was in neither). -/
theorem health_metrics_special_case
    (caggViewNames : List String) (ac : List (String × Aggs))
    (hv2 : 2 ≤ (pySort (caggViewNames.filter
      (fun n => pyStartsWith n "health_metrics_"))).length)
    (hk : dmem ac "health_metrics_raw" = true) :
    ∀ v ∈ (pySort (caggViewNames.filter
        (fun n => pyStartsWith n "health_metrics_"))).drop 1,
      ∃ aggs, dget? (health_metrics_fix caggViewNames ac) "health_metrics_raw" =
          some aggs ∧ (v ∈ aggs.direct ∨ v ∈ aggs.indirect) := by
  intro v hv
  unfold health_metrics_fix
  rw [if_pos hv2, if_pos hk]
  exact health_fold_covers _ ac hk v hv

/-- Witness for C9: two health-metrics views in the catalog; the sorted
second view is in the resulting direct-or-indirect lists. -/
theorem health_metrics_special_case_witness :
    ∃ aggs, dget? (health_metrics_fix
        ["health_metrics_1min_cagg", "health_metrics_1hour_cagg"]
        [("health_metrics_raw", ⟨["health_metrics_1min_cagg"], []⟩)])
        "health_metrics_raw" = some aggs ∧
      ("health_metrics_1min_cagg" ∈ aggs.direct ∨
        "health_metrics_1min_cagg" ∈ aggs.indirect) :=
  health_metrics_special_case
    ["health_metrics_1min_cagg", "health_metrics_1hour_cagg"]
    [("health_metrics_raw", ⟨["health_metrics_1min_cagg"], []⟩)]
    (by decide) (by decide) "health_metrics_1min_cagg" (by decide)

end TSDB
